import Mathlib

/-!
Shallow embedding of the rickypang0219/backtester repository: the rolling
statistics, the z-score signal engine and its position state machine, the
accounting columns, the Sharpe ratio and the maximum drawdown, as implemented
in src/backtester.py (class BackTester, on polars) and src/vector_backtest.py
(class VectorBackTester, on numpy).

Modelling conventions: machine floats become real numbers.  A numpy array
with NaN entries becomes a `List (Option ℝ)` with `none` for NaN: numpy
comparisons on NaN are all false and NaN propagates through arithmetic, so
for the numpy pipeline NaN is an inert missing value.  polars distinguishes
null from NaN, and its comparison kernels use a total order that places NaN
above every float, so a NaN z-score genuinely fires the greater-than flags
in BackTester; polars columns where the null/NaN distinction matters use the
dedicated `PlVal` type (null, NaN, or a value), while columns where the two
behave as the same missing value keep `List (Option ℝ)`.  np.min returns NaN
when its input contains one, modelled as a `none` result.
-/

namespace Backtester

/-- Mean of the trailing window of length `w` ending at index `i` (the window
x[i-w+1 .. i]), as polars rolling_mean computes it: window sum divided by the
window size. -/
noncomputable def trailingMean (x : List ℝ) (w i : ℕ) : ℝ :=
  (∑ k ∈ Finset.range w, x.getD (i + 1 - w + k) 0) / w

/-- Sample variance (ddof = 1) of the trailing window of length `w` ending at
index `i`: sum of squared deviations from the window mean over `w - 1`. -/
noncomputable def trailingSampleVar (x : List ℝ) (w i : ℕ) : ℝ :=
  (∑ k ∈ Finset.range w, (x.getD (i + 1 - w + k) 0 - trailingMean x w i) ^ 2) /
    ((w : ℝ) - 1)

/-- Embeds polars Series.rolling_mean(window_size=w) as called at
src/backtester.py line 22: entries before index w-1 are null, the rest hold
the trailing-window mean. -/
noncomputable def plRollingMean (x : List ℝ) (w : ℕ) : List (Option ℝ) :=
  (List.range x.length).map fun i =>
    if i + 1 < w then none else some (trailingMean x w i)

/-- Embeds polars Series.rolling_std(window_size=w) as called at
src/backtester.py line 23: sample standard deviation (ddof = 1) over the
trailing window, null before index w-1.  For w = 1 the ddof-1 denominator is
zero and the 0/0 division produces NaN at every bar, modelled as `none`. -/
noncomputable def plRollingStd (x : List ℝ) (w : ℕ) : List (Option ℝ) :=
  (List.range x.length).map fun i =>
    if i + 1 < w ∨ w < 2 then none
    else some (Real.sqrt (trailingSampleVar x w i))

/-- Value of a polars float column entry: a null, a NaN, or a proper float.
polars keeps the two non-values apart: arithmetic propagates both, but in a
comparison a null yields a null flag (falsy in the position loop), while a
NaN follows the polars total order and sorts above every float. -/
inductive PlVal where
  | null : PlVal
  | nan : PlVal
  | val : ℝ → PlVal

/-- Embeds polars Series.rolling_std(window_size=w) with null and NaN kept
apart: null before index w-1; for w = 1 every defined entry is 0/0 = NaN
(ddof-1 denominator zero); the real sample std otherwise.  The coarser
plRollingStd view above collapses both non-values to `none`. -/
noncomputable def plRollingStdP (x : List ℝ) (w : ℕ) : List PlVal :=
  (List.range x.length).map fun i =>
    if i + 1 < w then PlVal.null
    else if w < 2 then PlVal.nan
    else PlVal.val (Real.sqrt (trailingSampleVar x w i))

/-- Embeds np.mean of a list. -/
noncomputable def npMean (l : List ℝ) : ℝ := l.sum / l.length

/-- Embeds np.std(l, ddof=1): square root of the summed squared deviations
from the mean divided by len - 1.  For fewer than two samples the denominator
is zero and the 0/0 division yields NaN, modelled as `none`. -/
noncomputable def npStdSample (l : List ℝ) : Option ℝ :=
  if l.length < 2 then none
  else some (Real.sqrt ((l.map fun v => (v - npMean l) ^ 2).sum /
    ((l.length : ℝ) - 1)))

/-- Embeds VectorBackTester._compute_rolling_mean, src/vector_backtest.py
lines 12-17: an all-NaN array whose tail from index w-1 on is overwritten with
np.convolve(array, np.ones(w)/w, mode=valid); valid-mode entry j of that
convolution is the sum over k of array[j+k] * (1/w).  The python window count
len(array) - w + 1 is written length + 1 - w so that, as in python, it is
empty when w exceeds the length. -/
noncomputable def vbRollingMean (x : List ℝ) (w : ℕ) : List (Option ℝ) :=
  List.replicate (w - 1) (none : Option ℝ) ++
    (List.range (x.length + 1 - w)).map fun j =>
      some (∑ k ∈ Finset.range w, x.getD (j + k) 0 * (1 / (w : ℝ)))

/-- Embeds VectorBackTester._compute_rolling_std, src/vector_backtest.py
lines 19-26: w-1 NaN entries followed by np.std(array[j : j+w], ddof=1) for
each window start j. -/
noncomputable def vbRollingStd (x : List ℝ) (w : ℕ) : List (Option ℝ) :=
  List.replicate (w - 1) (none : Option ℝ) ++
    (List.range (x.length + 1 - w)).map fun j =>
      npStdSample ((x.drop j).take w)

/-- Embeds z_score = (factor - rolling_mean) / rolling_std of
VectorBackTester (src/vector_backtest.py line 33), over numpy arrays whose
only non-value is NaN (`none`).  A NaN mean or std propagates to a NaN z.
When the std is exactly 0 every window entry equals the window mean, so the
numerator is 0 as well and the float division is 0/0 = NaN; in numpy a NaN z
compares false against every threshold. -/
noncomputable def zScoreWith (x : List ℝ) (mean std : List (Option ℝ)) :
    List (Option ℝ) :=
  (List.range x.length).map fun i =>
    match mean.getD i none, std.getD i none with
    | some mu, some s => if s = 0 then none else some ((x.getD i 0 - mu) / s)
    | _, _ => none

/-- Embeds long_entry = (z_score > threshold).astype(int) of
VectorBackTester (src/vector_backtest.py line 35), read as a truthiness test
by the position loop; a NaN z yields a false flag under IEEE comparison. -/
noncomputable def longEntry (z : List (Option ℝ)) (m : ℝ) (i : ℕ) : Bool :=
  match z.getD i none with
  | some v => decide (v > m)
  | none => false

/-- Embeds long_exit = (z_score <= 0) of VectorBackTester
(src/vector_backtest.py line 36). -/
noncomputable def longExit (z : List (Option ℝ)) (i : ℕ) : Bool :=
  match z.getD i none with
  | some v => decide (v ≤ 0)
  | none => false

/-- Embeds short_entry = (z_score < -1 * threshold) of VectorBackTester
(src/vector_backtest.py line 38); the subsequent * -1 only flips the stored
integer, truthiness is unchanged. -/
noncomputable def shortEntry (z : List (Option ℝ)) (m : ℝ) (i : ℕ) : Bool :=
  match z.getD i none with
  | some v => decide (v < -1 * m)
  | none => false

/-- Embeds short_exit = (z_score >= 0) of VectorBackTester
(src/vector_backtest.py line 39). -/
noncomputable def shortExit (z : List (Option ℝ)) (i : ℕ) : Bool :=
  match z.getD i none with
  | some v => decide (v ≥ 0)
  | none => false

/-- Embeds long_entry = (z_score > multiplier).cast(pl.Int64) of BackTester
(src/backtester.py line 30): a real z compares normally; a NaN z sorts above
every float in the polars total order, so the flag is true; a null z gives a
null flag, falsy in the position loop. -/
noncomputable def longEntryP (z : List PlVal) (m : ℝ) (i : ℕ) : Bool :=
  match z.getD i PlVal.null with
  | PlVal.val v => decide (v > m)
  | PlVal.nan => true
  | PlVal.null => false

/-- Embeds long_exit = (z_score <= 0) of BackTester (src/backtester.py line
31): a NaN z sorts above every float, so the flag is false there. -/
noncomputable def longExitP (z : List PlVal) (i : ℕ) : Bool :=
  match z.getD i PlVal.null with
  | PlVal.val v => decide (v ≤ 0)
  | PlVal.nan => false
  | PlVal.null => false

/-- Embeds short_entry = (z_score < -1 * multiplier) of BackTester
(src/backtester.py line 33): a NaN z is never below a float in the polars
total order, so the flag is false there. -/
noncomputable def shortEntryP (z : List PlVal) (m : ℝ) (i : ℕ) : Bool :=
  match z.getD i PlVal.null with
  | PlVal.val v => decide (v < -1 * m)
  | PlVal.nan => false
  | PlVal.null => false

/-- Embeds short_exit = (z_score >= 0) of BackTester (src/backtester.py line
34): a NaN z sorts above every float, so the flag is true there. -/
noncomputable def shortExitP (z : List PlVal) (i : ℕ) : Bool :=
  match z.getD i PlVal.null with
  | PlVal.val v => decide (v ≥ 0)
  | PlVal.nan => true
  | PlVal.null => false

/-- Embeds the body of the position loop, src/backtester.py lines 37-48 and
src/vector_backtest.py lines 42-53: entry assignment, else carry-forward,
then the unconditional same-bar exit re-check. -/
def positionStep (prev : ℤ) (le se lx sx : Bool) : ℤ :=
  let p : ℤ := if le = true then 1 else if se = true then -1 else prev
  if (p = 1 ∧ lx = true) ∨ (p = -1 ∧ sx = true) then 0 else p

/-- Embeds the position series: position[0] = 0 (np.zeros), every later bar
produced by one pass of the loop body over the flag series. -/
def positionAux (le se lx sx : ℕ → Bool) : ℕ → ℤ
  | 0 => 0
  | i + 1 =>
    positionStep (positionAux le se lx sx i) (le (i + 1)) (se (i + 1))
      (lx (i + 1)) (sx (i + 1))

/-- Z-score column of BackTester._z_score_strategy (src/backtester.py line
24), with the polars null/NaN distinction: null where the rolling statistics
are null (warm-up bars); NaN where the rolling std is NaN (window 1) or
exactly 0 (a flat window makes the numerator 0 as well, and 0.0/0.0 = NaN);
the real quotient otherwise. -/
noncomputable def zScoreB (x : List ℝ) (w : ℕ) : List PlVal :=
  (List.range x.length).map fun i =>
    match (plRollingMean x w).getD i none,
        (plRollingStdP x w).getD i PlVal.null with
    | some mu, PlVal.val s =>
      if s = 0 then PlVal.nan else PlVal.val ((x.getD i 0 - mu) / s)
    | some _, PlVal.nan => PlVal.nan
    | _, _ => PlVal.null

/-- Z-score of VectorBackTester._z_score_strategy_position (numpy
statistics). -/
noncomputable def zScoreV (x : List ℝ) (w : ℕ) : List (Option ℝ) :=
  zScoreWith x (vbRollingMean x w) (vbRollingStd x w)

/-- Position series of BackTester._z_score_strategy at bar `i`, driven by
the polars flags (a NaN z-score fires the greater-than comparisons). -/
noncomputable def positionB (x : List ℝ) (w : ℕ) (m : ℝ) (i : ℕ) : ℤ :=
  positionAux (longEntryP (zScoreB x w) m) (shortEntryP (zScoreB x w) m)
    (longExitP (zScoreB x w)) (shortExitP (zScoreB x w)) i

/-- Position series of VectorBackTester._z_score_strategy_position at bar
`i`. -/
noncomputable def positionV (x : List ℝ) (w : ℕ) (m : ℝ) (i : ℕ) : ℤ :=
  positionAux (longEntry (zScoreV x w) m) (shortEntry (zScoreV x w) m)
    (longExit (zScoreV x w)) (shortExit (zScoreV x w)) i

/-- Entry `i` of a map over List.range, with the default beyond the end. -/
theorem getD_range_map {α : Type} (f : ℕ → α) (n i : ℕ) (d : α) :
    ((List.range n).map f).getD i d = if i < n then f i else d := by
  rcases Nat.lt_or_ge i n with h | h
  · rw [if_pos h, List.getD_eq_getElem?_getD, List.getElem?_map,
      List.getElem?_range h]
    rfl
  · rw [if_neg (Nat.not_lt.2 h), List.getD_eq_getElem?_getD,
      List.getElem?_eq_none (by simpa using h)]
    rfl

/-- Entry `i` of a replicate-of-none prefix followed by a list: inside the
prefix it is none. -/
theorem getD_replicate_append_of_lt {k i : ℕ} (h : i < k)
    (l : List (Option ℝ)) :
    (List.replicate k (none : Option ℝ) ++ l).getD i none = none := by
  simp [List.getD_eq_getElem?_getD, List.getElem?_append, h,
    List.getElem?_replicate]

/-- Entry `i` of a replicate prefix followed by a list, past the prefix. -/
theorem getD_replicate_append_of_ge {k i : ℕ} (h : k ≤ i)
    (l : List (Option ℝ)) :
    (List.replicate k (none : Option ℝ) ++ l).getD i none =
      l.getD (i - k) none := by
  rw [List.getD_eq_getElem?_getD, List.getD_eq_getElem?_getD,
    List.getElem?_append_right (by simpa using h)]
  simp

theorem plRollingStdP_getD_null (x : List ℝ) {w i : ℕ} (h : i + 1 < w) :
    (plRollingStdP x w).getD i PlVal.null = PlVal.null := by
  rw [plRollingStdP, getD_range_map]
  rcases Nat.lt_or_ge i x.length with hx | hx
  · rw [if_pos hx, if_pos h]
  · rw [if_neg (Nat.not_lt.2 hx)]

theorem plRollingStdP_getD_nan (x : List ℝ) {w i : ℕ} (h1 : ¬ i + 1 < w)
    (h2 : w < 2) (h3 : i < x.length) :
    (plRollingStdP x w).getD i PlVal.null = PlVal.nan := by
  rw [plRollingStdP, getD_range_map, if_pos h3, if_neg h1, if_pos h2]

theorem plRollingStdP_getD_eq (x : List ℝ) {w i : ℕ} (h1 : ¬ i + 1 < w)
    (h2 : 2 ≤ w) (h3 : i < x.length) :
    (plRollingStdP x w).getD i PlVal.null =
      PlVal.val (Real.sqrt (trailingSampleVar x w i)) := by
  rw [plRollingStdP, getD_range_map, if_pos h3, if_neg h1,
    if_neg (by omega)]

theorem longEntry_iff (z : List (Option ℝ)) (m : ℝ) (i : ℕ) :
    longEntry z m i = true ↔ ∃ v, z.getD i none = some v ∧ v > m := by
  unfold longEntry
  cases h : z.getD i none with
  | none => simp
  | some v => simp

theorem shortEntry_iff (z : List (Option ℝ)) (m : ℝ) (i : ℕ) :
    shortEntry z m i = true ↔ ∃ v, z.getD i none = some v ∧ v < -1 * m := by
  unfold shortEntry
  cases h : z.getD i none with
  | none => simp
  | some v => simp

theorem longExit_iff (z : List (Option ℝ)) (i : ℕ) :
    longExit z i = true ↔ ∃ v, z.getD i none = some v ∧ v ≤ 0 := by
  unfold longExit
  cases h : z.getD i none with
  | none => simp
  | some v => simp

theorem shortExit_iff (z : List (Option ℝ)) (i : ℕ) :
    shortExit z i = true ↔ ∃ v, z.getD i none = some v ∧ v ≥ 0 := by
  unfold shortExit
  cases h : z.getD i none with
  | none => simp
  | some v => simp

theorem flags_false_of_none {z : List (Option ℝ)} (m : ℝ) {i : ℕ}
    (h : z.getD i none = none) :
    longEntry z m i = false ∧ shortEntry z m i = false ∧
      longExit z i = false ∧ shortExit z i = false := by
  unfold longEntry shortEntry longExit shortExit
  rw [h]
  simp

theorem longEntryP_iff (z : List PlVal) (m : ℝ) (i : ℕ) :
    longEntryP z m i = true ↔
      (∃ v, z.getD i PlVal.null = PlVal.val v ∧ v > m) ∨
        z.getD i PlVal.null = PlVal.nan := by
  unfold longEntryP
  cases h : z.getD i PlVal.null with
  | null => simp
  | nan => simp
  | val v => simp

theorem shortEntryP_iff (z : List PlVal) (m : ℝ) (i : ℕ) :
    shortEntryP z m i = true ↔
      ∃ v, z.getD i PlVal.null = PlVal.val v ∧ v < -1 * m := by
  unfold shortEntryP
  cases h : z.getD i PlVal.null with
  | null => simp
  | nan => simp
  | val v => simp

theorem longExitP_iff (z : List PlVal) (i : ℕ) :
    longExitP z i = true ↔
      ∃ v, z.getD i PlVal.null = PlVal.val v ∧ v ≤ 0 := by
  unfold longExitP
  cases h : z.getD i PlVal.null with
  | null => simp
  | nan => simp
  | val v => simp

theorem shortExitP_iff (z : List PlVal) (i : ℕ) :
    shortExitP z i = true ↔
      (∃ v, z.getD i PlVal.null = PlVal.val v ∧ v ≥ 0) ∨
        z.getD i PlVal.null = PlVal.nan := by
  unfold shortExitP
  cases h : z.getD i PlVal.null with
  | null => simp
  | nan => simp
  | val v => simp

theorem flagsP_false_of_null {z : List PlVal} (m : ℝ) {i : ℕ}
    (h : z.getD i PlVal.null = PlVal.null) :
    longEntryP z m i = false ∧ shortEntryP z m i = false ∧
      longExitP z i = false ∧ shortExitP z i = false := by
  unfold longEntryP shortEntryP longExitP shortExitP
  rw [h]
  simp

theorem positionAux_succ (le se lx sx : ℕ → Bool) (i : ℕ) :
    positionAux le se lx sx (i + 1) =
      positionStep (positionAux le se lx sx i) (le (i + 1)) (se (i + 1))
        (lx (i + 1)) (sx (i + 1)) := rfl

theorem positionStep_mem {prev : ℤ} (a b c d : Bool)
    (hprev : prev = -1 ∨ prev = 0 ∨ prev = 1) :
    positionStep prev a b c d = -1 ∨ positionStep prev a b c d = 0 ∨
      positionStep prev a b c d = 1 := by
  unfold positionStep
  rcases a <;> rcases b <;> rcases hprev with h | h | h <;>
    simp [h] <;> split_ifs <;> simp

theorem positionAux_mem (le se lx sx : ℕ → Bool) (i : ℕ) :
    positionAux le se lx sx i = -1 ∨ positionAux le se lx sx i = 0 ∨
      positionAux le se lx sx i = 1 := by
  induction i with
  | zero => simp [positionAux]
  | succ n ih => exact positionStep_mem _ _ _ _ ih

theorem positionAux_eq_zero (le se lx sx : ℕ → Bool) (i : ℕ)
    (h : ∀ j, j ≤ i → le j = false ∧ se j = false) :
    positionAux le se lx sx i = 0 := by
  induction i with
  | zero => rfl
  | succ n ih =>
    rw [positionAux_succ, ih (fun j hj => h j (Nat.le_succ_of_le hj))]
    rcases h (n + 1) (Nat.le_refl _) with ⟨h1, h2⟩
    simp [positionStep, h1, h2]

/-- C2: for every factor series, window and multiplier, the position series
of both implementations starts at 0 and stays in the set of values -1, 0, 1
at every index. -/
theorem position_range_invariant (x : List ℝ) (w : ℕ) (m : ℝ) (i : ℕ) :
    positionB x w m 0 = 0 ∧ positionV x w m 0 = 0 ∧
      (positionB x w m i = -1 ∨ positionB x w m i = 0 ∨
        positionB x w m i = 1) ∧
      (positionV x w m i = -1 ∨ positionV x w m i = 0 ∨
        positionV x w m i = 1) :=
  ⟨rfl, rfl, positionAux_mem _ _ _ _ i, positionAux_mem _ _ _ _ i⟩

/-- C1 (amended): the transition rule holds as stated for every bar i from 1
on (entry assignment, else carry-forward, then the unconditional same-bar
exit re-check forcing 0), and for real z values the flags are exactly the
stated comparisons in both implementations.  For a missing z the two
implementations differ: the vector implementation (NaN z) has all four flags
false, and so does the polars implementation at a null z (warm-up bars), but
at a NaN z (rolling std exactly 0, or NaN at window 1) the polars total
order puts NaN above every float, so long_entry and short_exit are true
while long_exit and short_entry are false.  The two trailing conjuncts
instantiate the loop to both implementations for every factor series, window
and multiplier. -/
theorem position_transition_rule (z : List (Option ℝ)) (zp : List PlVal)
    (m : ℝ) (i : ℕ) :
    (longEntry z m i = true ↔ ∃ v, z.getD i none = some v ∧ v > m) ∧
    (shortEntry z m i = true ↔ ∃ v, z.getD i none = some v ∧ v < -1 * m) ∧
    (longExit z i = true ↔ ∃ v, z.getD i none = some v ∧ v ≤ 0) ∧
    (shortExit z i = true ↔ ∃ v, z.getD i none = some v ∧ v ≥ 0) ∧
    (z.getD i none = none →
      longEntry z m i = false ∧ shortEntry z m i = false ∧
        longExit z i = false ∧ shortExit z i = false) ∧
    (longEntryP zp m i = true ↔
      (∃ v, zp.getD i PlVal.null = PlVal.val v ∧ v > m) ∨
        zp.getD i PlVal.null = PlVal.nan) ∧
    (shortEntryP zp m i = true ↔
      ∃ v, zp.getD i PlVal.null = PlVal.val v ∧ v < -1 * m) ∧
    (longExitP zp i = true ↔
      ∃ v, zp.getD i PlVal.null = PlVal.val v ∧ v ≤ 0) ∧
    (shortExitP zp i = true ↔
      (∃ v, zp.getD i PlVal.null = PlVal.val v ∧ v ≥ 0) ∨
        zp.getD i PlVal.null = PlVal.nan) ∧
    (zp.getD i PlVal.null = PlVal.null →
      longEntryP zp m i = false ∧ shortEntryP zp m i = false ∧
        longExitP zp i = false ∧ shortExitP zp i = false) ∧
    (∀ le se lx sx : ℕ → Bool, 1 ≤ i →
      positionAux le se lx sx i =
        (let p : ℤ :=
          if le i = true then 1
          else if se i = true then -1
          else positionAux le se lx sx (i - 1);
        if (p = 1 ∧ lx i = true) ∨ (p = -1 ∧ sx i = true) then 0 else p)) ∧
    (∀ x w, positionB x w m i =
      positionAux (longEntryP (zScoreB x w) m) (shortEntryP (zScoreB x w) m)
        (longExitP (zScoreB x w)) (shortExitP (zScoreB x w)) i) ∧
    (∀ x w, positionV x w m i =
      positionAux (longEntry (zScoreV x w) m) (shortEntry (zScoreV x w) m)
        (longExit (zScoreV x w)) (shortExit (zScoreV x w)) i) := by
  refine ⟨longEntry_iff z m i, shortEntry_iff z m i, longExit_iff z i,
    shortExit_iff z i, fun h => flags_false_of_none m h,
    longEntryP_iff zp m i, shortEntryP_iff zp m i, longExitP_iff zp i,
    shortExitP_iff zp i, fun h => flagsP_false_of_null m h, ?_,
    fun _ _ => rfl, fun _ _ => rfl⟩
  intro le se lx sx hi
  obtain ⟨j, rfl⟩ : ∃ j, i = j + 1 := by
    rcases i with _ | j
    · exact absurd hi (by simp)
    · exact ⟨j, rfl⟩
  rw [positionAux_succ]
  simp only [Nat.add_sub_cancel]
  rfl

/-- Helper computation: on the factor series 5, 5 with window 2, the rolling
std at bar 1 is exactly 0, so the polars z there is 0.0/0.0 = NaN. -/
theorem zScoreB_five_five_nan :
    (zScoreB [(5 : ℝ), 5] 2).getD 1 PlVal.null = PlVal.nan := by
  have hm5 : trailingMean [(5 : ℝ), 5] 2 1 = 5 := by
    rw [trailingMean, Finset.sum_range_succ, Finset.sum_range_succ,
      Finset.sum_range_zero]
    norm_num [List.getD]
  have hvar : trailingSampleVar [(5 : ℝ), 5] 2 1 = 0 := by
    rw [trailingSampleVar, Finset.sum_range_succ, Finset.sum_range_succ,
      Finset.sum_range_zero, hm5]
    norm_num [List.getD]
  have hmean : (plRollingMean [(5 : ℝ), 5] 2).getD 1 none = some 5 := by
    rw [plRollingMean, getD_range_map, if_pos (by norm_num),
      if_neg (by norm_num), hm5]
  have hstdP : (plRollingStdP [(5 : ℝ), 5] 2).getD 1 PlVal.null =
      PlVal.val 0 := by
    rw [plRollingStdP_getD_eq [(5 : ℝ), 5] (by norm_num) (by norm_num)
      (by norm_num), hvar, Real.sqrt_zero]
  rw [zScoreB, getD_range_map, if_pos (by norm_num), hmean, hstdP]
  simp

/-- Counterexample to the original C1 reading: on the factor series 5, 5
with window 2, the rolling std at bar 1 is exactly 0, so the z-score there
is the missing value 0.0/0.0 = NaN, yet in BackTester the long-entry and
short-exit flags are true at that bar (polars sorts NaN above every float),
not false. -/
theorem polars_nan_flags_cex :
    (zScoreB [(5 : ℝ), 5] 2).getD 1 PlVal.null = PlVal.nan ∧
      longEntryP (zScoreB [(5 : ℝ), 5] 2) 1 1 = true ∧
      shortExitP (zScoreB [(5 : ℝ), 5] 2) 1 = true := by
  refine ⟨zScoreB_five_five_nan, ?_, ?_⟩
  · unfold longEntryP
    rw [zScoreB_five_five_nan]
  · unfold shortExitP
    rw [zScoreB_five_five_nan]

theorem plRollingMean_getD_none (x : List ℝ) {w i : ℕ} (h : i + 1 < w) :
    (plRollingMean x w).getD i none = none := by
  rw [plRollingMean, getD_range_map]
  rcases Nat.lt_or_ge i x.length with hx | hx
  · simp [hx, h]
  · simp [Nat.not_lt.2 hx]

theorem vbRollingMean_getD_none (x : List ℝ) {w i : ℕ} (h : i < w - 1) :
    (vbRollingMean x w).getD i none = none := by
  rw [vbRollingMean]
  exact getD_replicate_append_of_lt h _

theorem zScoreWith_getD_none (x : List ℝ) {mean : List (Option ℝ)}
    (std : List (Option ℝ)) {i : ℕ} (h : mean.getD i none = none) :
    (zScoreWith x mean std).getD i none = none := by
  rw [zScoreWith, getD_range_map]
  rcases Nat.lt_or_ge i x.length with hx | hx
  · rw [if_pos hx, h]
  · rw [if_neg (Nat.not_lt.2 hx)]

theorem zScoreB_getD_null (x : List ℝ) {w i : ℕ} (h : i < w - 1) :
    (zScoreB x w).getD i PlVal.null = PlVal.null := by
  rw [zScoreB, getD_range_map]
  rcases Nat.lt_or_ge i x.length with hx | hx
  · rw [if_pos hx, plRollingMean_getD_none x (by omega)]
  · rw [if_neg (Nat.not_lt.2 hx)]

theorem zScoreV_getD_none (x : List ℝ) {w i : ℕ} (h : i < w - 1) :
    (zScoreV x w).getD i none = none :=
  zScoreWith_getD_none x _ (vbRollingMean_getD_none x h)

/-- C10: during the warm-up bars i < w-1 the rolling statistics are missing,
so the z-score is missing, every flag is false, and both implementations keep
the initial flat position 0. -/
theorem position_warmup_flat (x : List ℝ) (w : ℕ) (m : ℝ) (i : ℕ)
    (hw : 1 ≤ w) (hn : w ≤ x.length) (hi : i < w - 1) :
    positionB x w m i = 0 ∧ positionV x w m i = 0 := by
  constructor
  · refine positionAux_eq_zero _ _ _ _ i fun j hj => ?_
    have hz : (zScoreB x w).getD j PlVal.null = PlVal.null :=
      zScoreB_getD_null x (lt_of_le_of_lt hj hi)
    exact ⟨(flagsP_false_of_null m hz).1, (flagsP_false_of_null m hz).2.1⟩
  · refine positionAux_eq_zero _ _ _ _ i fun j hj => ?_
    have hz : (zScoreV x w).getD j none = none :=
      zScoreV_getD_none x (lt_of_le_of_lt hj hi)
    exact ⟨(flags_false_of_none m hz).1, (flags_false_of_none m hz).2.1⟩

/-- Closed instance of the warm-up property: with window 3 over a length-3
series, bar 1 is still inside the warm-up region and both positions are 0. -/
theorem position_warmup_flat_witness :
    1 ≤ 3 ∧ 3 ≤ List.length [(1 : ℝ), 2, 3] ∧ 1 < 3 - 1 ∧
      positionB [(1 : ℝ), 2, 3] 3 5 1 = 0 ∧
      positionV [(1 : ℝ), 2, 3] 3 5 1 = 0 := by
  refine ⟨by norm_num, by norm_num, by norm_num, ?_⟩
  have h := position_warmup_flat [(1 : ℝ), 2, 3] 3 5 1 (by norm_num)
    (by norm_num) (by norm_num)
  exact ⟨h.1, h.2⟩

theorem entry_locked (z : List (Option ℝ)) (m : ℝ) (i : ℕ)
    (hm : 0 < m) (hi : 1 ≤ i) :
    (longEntry z m i = true →
      positionAux (longEntry z m) (shortEntry z m) (longExit z)
        (shortExit z) i = 1) ∧
    (shortEntry z m i = true →
      positionAux (longEntry z m) (shortEntry z m) (longExit z)
        (shortExit z) i = -1) := by
  obtain ⟨j, rfl⟩ : ∃ j, i = j + 1 := by
    rcases i with _ | j
    · exact absurd hi (by simp)
    · exact ⟨j, rfl⟩
  constructor
  · intro hle
    obtain ⟨v, hv, hvm⟩ := (longEntry_iff z m (j + 1)).1 hle
    have hlx : longExit z (j + 1) = false := by
      rw [Bool.eq_false_iff]
      intro hcon
      obtain ⟨u, hu, hu0⟩ := (longExit_iff z (j + 1)).1 hcon
      rw [hv] at hu
      injection hu with hvu
      subst hvu
      linarith
    rw [positionAux_succ]
    simp [positionStep, hle, hlx]
  · intro hse
    obtain ⟨v, hv, hvm⟩ := (shortEntry_iff z m (j + 1)).1 hse
    have hle : longEntry z m (j + 1) = false := by
      rw [Bool.eq_false_iff]
      intro hcon
      obtain ⟨u, hu, hum⟩ := (longEntry_iff z m (j + 1)).1 hcon
      rw [hv] at hu
      injection hu with hvu
      subst hvu
      linarith
    have hsx : shortExit z (j + 1) = false := by
      rw [Bool.eq_false_iff]
      intro hcon
      obtain ⟨u, hu, hu0⟩ := (shortExit_iff z (j + 1)).1 hcon
      rw [hv] at hu
      injection hu with hvu
      subst hvu
      have : (0 : ℝ) < -1 * m := lt_of_le_of_lt hu0 hvm
      linarith
    rw [positionAux_succ]
    simp [positionStep, hle, hse, hsx]

theorem entry_locked_pl (zp : List PlVal) (m : ℝ) (i : ℕ)
    (hm : 0 < m) (hi : 1 ≤ i) :
    (longEntryP zp m i = true →
      positionAux (longEntryP zp m) (shortEntryP zp m) (longExitP zp)
        (shortExitP zp) i = 1) ∧
    (shortEntryP zp m i = true →
      positionAux (longEntryP zp m) (shortEntryP zp m) (longExitP zp)
        (shortExitP zp) i = -1) := by
  obtain ⟨j, rfl⟩ : ∃ j, i = j + 1 := by
    rcases i with _ | j
    · exact absurd hi (by simp)
    · exact ⟨j, rfl⟩
  constructor
  · intro hle
    have hlx : longExitP zp (j + 1) = false := by
      rw [Bool.eq_false_iff]
      intro hcon
      obtain ⟨u, hu, hu0⟩ := (longExitP_iff zp (j + 1)).1 hcon
      rcases (longEntryP_iff zp m (j + 1)).1 hle with ⟨v, hv, hvm⟩ | hnan
      · rw [hv] at hu
        injection hu with huv
        subst huv
        linarith
      · rw [hnan] at hu
        exact PlVal.noConfusion hu
    rw [positionAux_succ]
    simp [positionStep, hle, hlx]
  · intro hse
    obtain ⟨v, hv, hvm⟩ := (shortEntryP_iff zp m (j + 1)).1 hse
    have hle : longEntryP zp m (j + 1) = false := by
      rw [Bool.eq_false_iff]
      intro hcon
      rcases (longEntryP_iff zp m (j + 1)).1 hcon with ⟨u, hu, hum⟩ | hnan
      · rw [hv] at hu
        injection hu with huv
        subst huv
        linarith
      · rw [hv] at hnan
        exact PlVal.noConfusion hnan
    have hsx : shortExitP zp (j + 1) = false := by
      rw [Bool.eq_false_iff]
      intro hcon
      rcases (shortExitP_iff zp (j + 1)).1 hcon with ⟨u, hu, hu0⟩ | hnan
      · rw [hv] at hu
        injection hu with huv
        subst huv
        have : (0 : ℝ) < -1 * m := lt_of_le_of_lt hu0 hvm
        linarith
      · rw [hv] at hnan
        exact PlVal.noConfusion hnan
    rw [positionAux_succ]
    simp [positionStep, hle, hse, hsx]

/-- C7: with a strictly positive multiplier, a bar whose long (short) entry
flag fires ends the bar at position +1 (-1) in both implementations: the
same-bar exit re-check can never override an entry.  In the vector
implementation an entry requires a real z beyond the threshold, putting the
matching exit comparison on the other side of zero; in the polars
implementation a long entry can also fire on a NaN z, but NaN sorts above
every float there too, so the long exit (z below zero) still cannot fire. -/
theorem entry_never_overridden (x : List ℝ) (w : ℕ) (m : ℝ) (i : ℕ)
    (hm : 0 < m) (hi : 1 ≤ i) :
    ((longEntryP (zScoreB x w) m i = true → positionB x w m i = 1) ∧
      (shortEntryP (zScoreB x w) m i = true → positionB x w m i = -1)) ∧
    ((longEntry (zScoreV x w) m i = true → positionV x w m i = 1) ∧
      (shortEntry (zScoreV x w) m i = true → positionV x w m i = -1)) :=
  ⟨entry_locked_pl (zScoreB x w) m i hm hi,
    entry_locked (zScoreV x w) m i hm hi⟩

/-- Closed instance of the entry-lock property: on the factor series 1, 2, 3
with window 3 and multiplier 1/2, the long-entry flag fires at bar 2 (the
z-score there is the real value 1) and the final position at that bar is
+1. -/
theorem entry_never_overridden_witness :
    0 < (1 / 2 : ℝ) ∧ 1 ≤ 2 ∧
      longEntryP (zScoreB [(1 : ℝ), 2, 3] 3) (1 / 2) 2 = true ∧
      positionB [(1 : ℝ), 2, 3] 3 (1 / 2) 2 = 1 := by
  have hmean2 : trailingMean [(1 : ℝ), 2, 3] 3 2 = 2 := by
    rw [trailingMean, Finset.sum_range_succ, Finset.sum_range_succ,
      Finset.sum_range_succ, Finset.sum_range_zero]
    norm_num [List.getD]
  have hvar : trailingSampleVar [(1 : ℝ), 2, 3] 3 2 = 1 := by
    rw [trailingSampleVar, Finset.sum_range_succ, Finset.sum_range_succ,
      Finset.sum_range_succ, Finset.sum_range_zero, hmean2]
    norm_num [List.getD]
  have hmean : (plRollingMean [(1 : ℝ), 2, 3] 3).getD 2 none = some 2 := by
    rw [plRollingMean, getD_range_map, if_pos (by norm_num), if_neg (by norm_num),
      hmean2]
  have hstd : (plRollingStdP [(1 : ℝ), 2, 3] 3).getD 2 PlVal.null =
      PlVal.val 1 := by
    rw [plRollingStdP_getD_eq [(1 : ℝ), 2, 3] (by norm_num) (by norm_num)
      (by norm_num), hvar, Real.sqrt_one]
  have hz : (zScoreB [(1 : ℝ), 2, 3] 3).getD 2 PlVal.null = PlVal.val 1 := by
    rw [zScoreB, getD_range_map, if_pos (by norm_num), hmean, hstd]
    norm_num [List.getD]
  have hfire : longEntryP (zScoreB [(1 : ℝ), 2, 3] 3) (1 / 2) 2 = true := by
    unfold longEntryP
    rw [hz]
    norm_num
  exact ⟨by norm_num, by norm_num, hfire,
    (entry_never_overridden [(1 : ℝ), 2, 3] 3 (1 / 2) 2 (by norm_num)
      (by norm_num)).1.1 hfire⟩

theorem plRollingMean_getD_eq (x : List ℝ) {w i : ℕ} (h1 : ¬ i + 1 < w)
    (h2 : i < x.length) :
    (plRollingMean x w).getD i none = some (trailingMean x w i) := by
  rw [plRollingMean, getD_range_map, if_pos h2, if_neg h1]

theorem vbRollingMean_getD_eq (x : List ℝ) {w i : ℕ} (hw : 1 ≤ w)
    (h1 : w - 1 ≤ i) (h2 : i < x.length) :
    (vbRollingMean x w).getD i none = some (trailingMean x w i) := by
  rw [vbRollingMean, getD_replicate_append_of_ge h1, getD_range_map,
    if_pos (by omega)]
  congr 1
  rw [Finset.sum_congr rfl
    (fun k _ => by
      rw [mul_one_div,
        show i - (w - 1) + k = i + 1 - w + k from by omega] :
      ∀ k ∈ Finset.range w,
        x.getD (i - (w - 1) + k) 0 * (1 / (w : ℝ)) =
          x.getD (i + 1 - w + k) 0 / w),
    ← Finset.sum_div, trailingMean]

theorem npStdSample_short {l : List ℝ} (h : l.length < 2) :
    npStdSample l = none := by
  rw [npStdSample, if_pos h]

theorem plRollingStd_getD_none (x : List ℝ) {w i : ℕ}
    (h : i + 1 < w ∨ w < 2) :
    (plRollingStd x w).getD i none = none := by
  rw [plRollingStd, getD_range_map]
  rcases Nat.lt_or_ge i x.length with hx | hx
  · rw [if_pos hx, if_pos h]
  · rw [if_neg (Nat.not_lt.2 hx)]

theorem plRollingStd_getD_eq (x : List ℝ) {w i : ℕ} (h1 : ¬ i + 1 < w)
    (h2 : 2 ≤ w) (h3 : i < x.length) :
    (plRollingStd x w).getD i none =
      some (Real.sqrt (trailingSampleVar x w i)) := by
  rw [plRollingStd, getD_range_map, if_pos h3,
    if_neg (by push_neg; exact ⟨Nat.not_lt.1 h1, by omega⟩)]

theorem vbRollingStd_getD_none (x : List ℝ) {w i : ℕ} (h : i < w - 1) :
    (vbRollingStd x w).getD i none = none := by
  rw [vbRollingStd]
  exact getD_replicate_append_of_lt h _

theorem vbRollingStd_getD_eq_slice (x : List ℝ) {w i : ℕ} (h1 : w - 1 ≤ i)
    (h2 : i - (w - 1) < x.length + 1 - w) :
    (vbRollingStd x w).getD i none =
      npStdSample ((x.drop (i - (w - 1))).take w) := by
  rw [vbRollingStd, getD_replicate_append_of_ge h1, getD_range_map, if_pos h2]

theorem slice_eq_ofFn (x : List ℝ) {j w : ℕ} (h : j + w ≤ x.length) :
    (x.drop j).take w = List.ofFn (fun k : Fin w => x.getD (j + k) 0) := by
  apply List.ext_getElem
  · simp only [List.length_take, List.length_drop, List.length_ofFn]
    omega
  · intro k hk1 hk2
    have hk : k < w := by simpa using hk2
    have hjk : j + k < x.length := by omega
    rw [List.getElem_take, List.getElem_drop, List.getElem_ofFn]
    exact (List.getD_eq_getElem x 0 hjk).symm

theorem npStdSample_window (x : List ℝ) {w i : ℕ} (h2w : 2 ≤ w)
    (h1 : w - 1 ≤ i) (h2 : i < x.length) :
    npStdSample ((x.drop (i - (w - 1))).take w) =
      some (Real.sqrt (trailingSampleVar x w i)) := by
  have hjw : (i - (w - 1)) + w ≤ x.length := by omega
  rw [slice_eq_ofFn x hjw]
  have hlen : (List.ofFn (fun k : Fin w => x.getD (i - (w - 1) + k) 0)).length
      = w := List.length_ofFn _
  have hsum : (List.ofFn (fun k : Fin w => x.getD (i - (w - 1) + k) 0)).sum
      = ∑ k ∈ Finset.range w, x.getD (i + 1 - w + k) 0 := by
    rw [List.sum_ofFn,
      Fin.sum_univ_eq_sum_range (fun k => x.getD (i - (w - 1) + k) 0) w]
    exact Finset.sum_congr rfl fun k _ => by
      rw [show i - (w - 1) + k = i + 1 - w + k from by omega]
  have hmean : npMean (List.ofFn (fun k : Fin w => x.getD (i - (w - 1) + k) 0))
      = trailingMean x w i := by
    rw [npMean, hsum, hlen, trailingMean]
  rw [npStdSample, if_neg (by rw [hlen]; omega)]
  congr 2
  rw [hmean, List.map_ofFn, List.sum_ofFn, hlen, trailingSampleVar]
  congr 1
  rw [show (∑ k : Fin w, ((fun v => (v - trailingMean x w i) ^ 2) ∘
        fun k : Fin w => x.getD (i - (w - 1) + k) 0) k) =
      ∑ k : Fin w, (x.getD (i - (w - 1) + k) 0 - trailingMean x w i) ^ 2 from
      Finset.sum_congr rfl fun k _ => rfl,
    Fin.sum_univ_eq_sum_range
      (fun k => (x.getD (i - (w - 1) + k) 0 - trailingMean x w i) ^ 2) w]
  exact Finset.sum_congr rfl fun k _ => by
    rw [show i - (w - 1) + k = i + 1 - w + k from by omega]

theorem plRollingMean_length (x : List ℝ) (w : ℕ) :
    (plRollingMean x w).length = x.length := by
  simp [plRollingMean]

theorem plRollingStd_length (x : List ℝ) (w : ℕ) :
    (plRollingStd x w).length = x.length := by
  simp [plRollingStd]

theorem vbRollingMean_length (x : List ℝ) (w : ℕ) :
    (vbRollingMean x w).length = (w - 1) + (x.length + 1 - w) := by
  simp [vbRollingMean]

theorem vbRollingStd_length (x : List ℝ) (w : ℕ) :
    (vbRollingStd x w).length = (w - 1) + (x.length + 1 - w) := by
  simp [vbRollingStd]

theorem rollingMean_equiv (x : List ℝ) {w : ℕ} (hw : 1 ≤ w)
    (hn : w ≤ x.length) : plRollingMean x w = vbRollingMean x w := by
  apply List.ext_getElem
  · rw [plRollingMean_length, vbRollingMean_length]; omega
  · intro i h1 h2
    have hi : i < x.length := by rwa [plRollingMean_length] at h1
    rw [← List.getD_eq_getElem (plRollingMean x w) none h1,
      ← List.getD_eq_getElem (vbRollingMean x w) none h2]
    rcases Nat.lt_or_ge i (w - 1) with hlt | hge
    · rw [plRollingMean_getD_none x (by omega), vbRollingMean_getD_none x hlt]
    · rw [plRollingMean_getD_eq x (by omega) hi,
        vbRollingMean_getD_eq x hw hge hi]

theorem rollingStd_equiv (x : List ℝ) {w : ℕ} (hw : 1 ≤ w)
    (hn : w ≤ x.length) : plRollingStd x w = vbRollingStd x w := by
  apply List.ext_getElem
  · rw [plRollingStd_length, vbRollingStd_length]; omega
  · intro i h1 h2
    have hi : i < x.length := by rwa [plRollingStd_length] at h1
    rw [← List.getD_eq_getElem (plRollingStd x w) none h1,
      ← List.getD_eq_getElem (vbRollingStd x w) none h2]
    rcases Nat.lt_or_ge i (w - 1) with hlt | hge
    · rw [plRollingStd_getD_none x (Or.inl (by omega)),
        vbRollingStd_getD_none x hlt]
    · rcases Nat.lt_or_ge w 2 with h2w | h2w
      · rw [plRollingStd_getD_none x (Or.inr h2w),
          vbRollingStd_getD_eq_slice x hge (by omega),
          npStdSample_short (by
            simp only [List.length_take, List.length_drop]
            omega)]
      · rw [plRollingStd_getD_eq x (by omega) h2w hi,
          vbRollingStd_getD_eq_slice x hge (by omega),
          npStdSample_window x h2w hge hi]

theorem positionAux_congr (le se lx sx le2 se2 lx2 sx2 : ℕ → Bool) (i : ℕ)
    (h : ∀ j, j ≤ i →
      le j = le2 j ∧ se j = se2 j ∧ lx j = lx2 j ∧ sx j = sx2 j) :
    positionAux le se lx sx i = positionAux le2 se2 lx2 sx2 i := by
  induction i with
  | zero => rfl
  | succ n ih =>
    rw [positionAux_succ, positionAux_succ,
      ih (fun j hj => h j (Nat.le_succ_of_le hj)),
      (h (n + 1) (Nat.le_refl _)).1, (h (n + 1) (Nat.le_refl _)).2.1,
      (h (n + 1) (Nat.le_refl _)).2.2.1, (h (n + 1) (Nat.le_refl _)).2.2.2]

/-- Correspondence of the two polars z views per index: the fine view
(zScoreB, null/NaN apart) refines the coarse Option view built from the same
polars statistics, NaN and null both collapsing to none there. -/
theorem zScore_polars_corr (x : List ℝ) (w j : ℕ) :
    ((zScoreB x w).getD j PlVal.null = PlVal.nan ∧
      (zScoreWith x (plRollingMean x w) (plRollingStd x w)).getD j none =
        none) ∨
    ((zScoreB x w).getD j PlVal.null = PlVal.null ∧
      (zScoreWith x (plRollingMean x w) (plRollingStd x w)).getD j none =
        none) ∨
    ∃ v, (zScoreB x w).getD j PlVal.null = PlVal.val v ∧
      (zScoreWith x (plRollingMean x w) (plRollingStd x w)).getD j none =
        some v := by
  rcases Nat.lt_or_ge j x.length with hj | hj
  · cases hmean : (plRollingMean x w).getD j none with
    | none =>
      right; left
      constructor
      · rw [zScoreB, getD_range_map, if_pos hj, hmean]
      · rw [zScoreWith, getD_range_map, if_pos hj, hmean]
    | some mu =>
      have hjw : ¬ j + 1 < w := by
        intro hc
        rw [plRollingMean_getD_none x hc] at hmean
        exact Option.noConfusion hmean
      rcases Nat.lt_or_ge w 2 with h2 | h2
      · left
        constructor
        · rw [zScoreB, getD_range_map, if_pos hj, hmean,
            plRollingStdP_getD_nan x hjw h2 hj]
        · rw [zScoreWith, getD_range_map, if_pos hj, hmean,
            plRollingStd_getD_none x (Or.inr h2)]
      · rcases eq_or_ne (Real.sqrt (trailingSampleVar x w j)) 0 with hs | hs
        · left
          constructor
          · rw [zScoreB, getD_range_map, if_pos hj, hmean,
              plRollingStdP_getD_eq x hjw h2 hj]
            simp [hs]
          · rw [zScoreWith, getD_range_map, if_pos hj, hmean,
              plRollingStd_getD_eq x hjw h2 hj]
            simp [hs]
        · right; right
          refine ⟨(x.getD j 0 - mu) / Real.sqrt (trailingSampleVar x w j),
            ?_, ?_⟩
          · rw [zScoreB, getD_range_map, if_pos hj, hmean,
              plRollingStdP_getD_eq x hjw h2 hj]
            simp [hs]
          · rw [zScoreWith, getD_range_map, if_pos hj, hmean,
              plRollingStd_getD_eq x hjw h2 hj]
            simp [hs]
  · right; left
    constructor
    · rw [zScoreB, getD_range_map, if_neg (Nat.not_lt.2 hj)]
    · rw [zScoreWith, getD_range_map, if_neg (Nat.not_lt.2 hj)]

/-- C5 (amended): for a window within the series length the polars windowed
aggregation and the manual convolution/slice implementation produce the same
rolling mean and rolling std columns, and the position series agree at every
bar i such that no bar up to i carries a NaN polars z-score (a zero rolling
std).  At a NaN z the two implementations genuinely diverge: polars fires
the long entry while numpy leaves all flags false. -/
theorem implementations_equivalent (x : List ℝ) (w : ℕ) (hw : 1 ≤ w)
    (hn : w ≤ x.length) :
    plRollingMean x w = vbRollingMean x w ∧
      plRollingStd x w = vbRollingStd x w ∧
      ∀ m i, (∀ j, j ≤ i → (zScoreB x w).getD j PlVal.null ≠ PlVal.nan) →
        positionB x w m i = positionV x w m i := by
  have hm := rollingMean_equiv x hw hn
  have hs := rollingStd_equiv x hw hn
  refine ⟨hm, hs, fun m i hnan => ?_⟩
  have hzv : zScoreV x w =
      zScoreWith x (plRollingMean x w) (plRollingStd x w) := by
    rw [zScoreV, ← hm, ← hs]
  rw [positionB, positionV, hzv]
  refine positionAux_congr _ _ _ _ _ _ _ _ i fun j hj => ?_
  rcases zScore_polars_corr x w j with ⟨hB, _⟩ | ⟨hB, hW⟩ | ⟨v, hB, hW⟩
  · exact absurd hB (hnan j hj)
  · refine ⟨?_, ?_, ?_, ?_⟩
    · rw [(flagsP_false_of_null m hB).1, (flags_false_of_none m hW).1]
    · rw [(flagsP_false_of_null m hB).2.1, (flags_false_of_none m hW).2.1]
    · rw [(flagsP_false_of_null m hB).2.2.1,
        (flags_false_of_none m hW).2.2.1]
    · rw [(flagsP_false_of_null m hB).2.2.2,
        (flags_false_of_none m hW).2.2.2]
  · refine ⟨?_, ?_, ?_, ?_⟩
    · unfold longEntryP longEntry
      rw [hB, hW]
    · unfold shortEntryP shortEntry
      rw [hB, hW]
    · unfold longExitP longExit
      rw [hB, hW]
    · unfold shortExitP shortExit
      rw [hB, hW]

theorem zScoreV_five_five_none :
    (zScoreV [(5 : ℝ), 5] 2).getD 1 none = none := by
  have hm5 : trailingMean [(5 : ℝ), 5] 2 1 = 5 := by
    rw [trailingMean, Finset.sum_range_succ, Finset.sum_range_succ,
      Finset.sum_range_zero]
    norm_num [List.getD]
  have hvbm : (vbRollingMean [(5 : ℝ), 5] 2).getD 1 none = some 5 := by
    rw [vbRollingMean_getD_eq [(5 : ℝ), 5] (by norm_num) (by norm_num)
      (by norm_num), hm5]
  have hnp : npStdSample [(5 : ℝ), 5] = some 0 := by
    have hsum : ([(5 : ℝ), 5].map fun v => (v - npMean [(5 : ℝ), 5]) ^ 2).sum
        = 0 := by
      norm_num [npMean]
    rw [npStdSample, if_neg (by norm_num), hsum]
    norm_num
  have hvbs : (vbRollingStd [(5 : ℝ), 5] 2).getD 1 none = some 0 := by
    rw [vbRollingStd_getD_eq_slice [(5 : ℝ), 5] (by norm_num) (by norm_num)]
    norm_num [hnp]
  rw [zScoreV, zScoreWith, getD_range_map, if_pos (by norm_num), hvbm, hvbs]
  simp

/-- Counterexample to the original C5 reading: on the factor series 5, 5
with window 2 and multiplier 1, the rolling std at bar 1 is exactly 0, so
the polars z is NaN and its long entry fires, ending the bar at position +1,
while the numpy z is NaN with all-false flags, leaving the bar flat at 0:
the two classes do not produce identical position series. -/
theorem implementations_diverge_cex :
    positionB [(5 : ℝ), 5] 2 1 1 = 1 ∧ positionV [(5 : ℝ), 5] 2 1 1 = 0 := by
  constructor
  · have hle : longEntryP (zScoreB [(5 : ℝ), 5] 2) 1 1 = true := by
      unfold longEntryP
      rw [zScoreB_five_five_nan]
    have hlx : longExitP (zScoreB [(5 : ℝ), 5] 2) 1 = false := by
      unfold longExitP
      rw [zScoreB_five_five_nan]
    rw [positionB, positionAux_succ, hle, hlx]
    simp [positionStep, positionAux]
  · have hfl := flags_false_of_none (z := zScoreV [(5 : ℝ), 5] 2) 1
      zScoreV_five_five_none
    rw [positionV, positionAux_succ, hfl.1, hfl.2.1, hfl.2.2.1, hfl.2.2.2]
    simp [positionStep, positionAux]

/-- Closed instance of the amended equivalence: on the series 1, 2 with
window 2 no bar has a NaN polars z, and the two implementations agree at
bar 1. -/
theorem implementations_equivalent_witness :
    1 ≤ 2 ∧ 2 ≤ List.length [(1 : ℝ), 2] ∧
      (∀ j, j ≤ 1 → (zScoreB [(1 : ℝ), 2] 2).getD j PlVal.null ≠
        PlVal.nan) ∧
      positionB [(1 : ℝ), 2] 2 1 1 = positionV [(1 : ℝ), 2] 2 1 1 := by
  have hm32 : trailingMean [(1 : ℝ), 2] 2 1 = 3 / 2 := by
    rw [trailingMean, Finset.sum_range_succ, Finset.sum_range_succ,
      Finset.sum_range_zero]
    norm_num [List.getD]
  have hmean : (plRollingMean [(1 : ℝ), 2] 2).getD 1 none = some (3 / 2) := by
    rw [plRollingMean, getD_range_map, if_pos (by norm_num),
      if_neg (by norm_num), hm32]
  have hvar : trailingSampleVar [(1 : ℝ), 2] 2 1 = 1 / 2 := by
    rw [trailingSampleVar, Finset.sum_range_succ, Finset.sum_range_succ,
      Finset.sum_range_zero, hm32]
    norm_num [List.getD]
  have hstdP : (plRollingStdP [(1 : ℝ), 2] 2).getD 1 PlVal.null =
      PlVal.val (Real.sqrt (1 / 2)) := by
    rw [plRollingStdP_getD_eq [(1 : ℝ), 2] (by norm_num) (by norm_num)
      (by norm_num), hvar]
  have hs : Real.sqrt (1 / 2) ≠ 0 := by
    rw [Real.sqrt_ne_zero']
    norm_num
  have hnan : ∀ j, j ≤ 1 →
      (zScoreB [(1 : ℝ), 2] 2).getD j PlVal.null ≠ PlVal.nan := by
    intro j hj
    rcases Nat.le_one_iff_eq_zero_or_eq_one.1 hj with rfl | rfl
    · rw [zScoreB_getD_null [(1 : ℝ), 2] (by norm_num)]
      simp
    · intro hcon
      rw [zScoreB, getD_range_map, if_pos (by norm_num), hmean, hstdP]
        at hcon
      simp [hs] at hcon
  exact ⟨by norm_num, by norm_num, hnan,
    (implementations_equivalent [(1 : ℝ), 2] 2 (by norm_num)
      (by norm_num)).2.2 1 1 hnan⟩

/-- C4 (amended): for a window 1 ≤ w ≤ n, both rolling implementations leave
every entry before index w-1 missing and fill every entry from w-1 on with
the trailing-window mean; the std entries from w-1 on hold the sample
(ddof = 1) formula over the trailing window whenever w ≥ 2, while for w = 1
the sample formula divides by zero and every std entry is NaN, i.e. missing,
rather than a defined value. -/
theorem rolling_stats_contract (x : List ℝ) (w i : ℕ) (hw : 1 ≤ w)
    (hn : w ≤ x.length) (hi : i < x.length) :
    (i < w - 1 →
      (plRollingMean x w).getD i none = none ∧
      (vbRollingMean x w).getD i none = none ∧
      (plRollingStd x w).getD i none = none ∧
      (vbRollingStd x w).getD i none = none) ∧
    (w - 1 ≤ i →
      (plRollingMean x w).getD i none = some (trailingMean x w i) ∧
      (vbRollingMean x w).getD i none = some (trailingMean x w i) ∧
      (2 ≤ w →
        (plRollingStd x w).getD i none =
          some (Real.sqrt (trailingSampleVar x w i)) ∧
        (vbRollingStd x w).getD i none =
          some (Real.sqrt (trailingSampleVar x w i))) ∧
      (w = 1 →
        (plRollingStd x w).getD i none = none ∧
        (vbRollingStd x w).getD i none = none)) := by
  constructor
  · intro hlt
    exact ⟨plRollingMean_getD_none x (by omega), vbRollingMean_getD_none x hlt,
      plRollingStd_getD_none x (Or.inl (by omega)),
      vbRollingStd_getD_none x hlt⟩
  · intro hge
    refine ⟨plRollingMean_getD_eq x (by omega) hi,
      vbRollingMean_getD_eq x hw hge hi, fun h2w => ?_, fun h1w => ?_⟩
    · exact ⟨plRollingStd_getD_eq x (by omega) h2w hi,
        by rw [vbRollingStd_getD_eq_slice x hge (by omega),
          npStdSample_window x h2w hge hi]⟩
    · subst h1w
      refine ⟨plRollingStd_getD_none x (Or.inr (by norm_num)), ?_⟩
      rw [vbRollingStd_getD_eq_slice x hge (by omega),
        npStdSample_short (by
          simp only [List.length_take, List.length_drop]
          omega)]

/-- Counterexample to the original C4 reading at window w = 1: index 0
satisfies i ≥ w-1, yet the rolling std entry there is missing in both
implementations (np.std with ddof=1 over a single sample is 0/0 = NaN), not
a defined sample-formula value. -/
theorem rolling_std_window_one_missing :
    1 ≤ 1 ∧ 1 ≤ List.length [(5 : ℝ)] ∧ 1 - 1 ≤ 0 ∧
      (vbRollingStd [(5 : ℝ)] 1).getD 0 none = none ∧
      (plRollingStd [(5 : ℝ)] 1).getD 0 none = none := by
  refine ⟨Nat.le_refl 1, by norm_num, by norm_num, ?_, ?_⟩
  · rw [vbRollingStd_getD_eq_slice [(5 : ℝ)] (by norm_num) (by norm_num),
      npStdSample_short (by norm_num)]
  · exact plRollingStd_getD_none [(5 : ℝ)] (Or.inr (by norm_num))

/-- Closed instance of the rolling-statistics contract: with window 2 over
the series 1, 2, 3, bar 1 is past the warm-up and both implementations hold
the trailing-window mean there. -/
theorem rolling_stats_contract_witness :
    (plRollingMean [(1 : ℝ), 2, 3] 2).getD 1 none =
      some (trailingMean [(1 : ℝ), 2, 3] 2 1) ∧
    (vbRollingMean [(1 : ℝ), 2, 3] 2).getD 1 none =
      some (trailingMean [(1 : ℝ), 2, 3] 2 1) := by
  have h := (rolling_stats_contract [(1 : ℝ), 2, 3] 2 1 (by norm_num)
    (by norm_num) (by norm_num)).2 (by norm_num)
  exact ⟨h.1, h.2.1⟩

/-- Embeds self.TRANSACTION_COST = 0.06 / 100 (src/backtester.py line 13). -/
noncomputable def TRANSACTION_COST : ℝ := 0.06 / 100

/-- Embeds BackTester._compute_trans_cost (src/backtester.py lines 53-62):
abs(position - position.shift(1)) * rate.  The shift leaves a null at index
0, which propagates through the arithmetic; the position column itself is a
plain float array and has no missing entries. -/
noncomputable def transCost (position : List ℝ) (rate : ℝ) :
    List (Option ℝ) :=
  (List.range position.length).map fun i =>
    if i = 0 then none
    else some (|position.getD i 0 - position.getD (i - 1) 0| * rate)

/-- Embeds price.pct_change() (src/backtester.py line 68): null at index 0,
price[i]/price[i-1] - 1 elsewhere, null whenever either price is null. -/
noncomputable def pctChange (price : List (Option ℝ)) : List (Option ℝ) :=
  (List.range price.length).map fun i =>
    if i = 0 then none
    else
      match price.getD i none, price.getD (i - 1) none with
      | some a, some b => some (a / b - 1)
      | _, _ => none

/-- Embeds the PnL column (src/backtester.py lines 64-79):
position.shift(1) * returns - trans_cost, with nulls propagating from any
operand; the shifted position is null exactly at index 0. -/
noncomputable def pnlList (position : List ℝ) (price : List (Option ℝ))
    (rate : ℝ) : List (Option ℝ) :=
  (List.range position.length).map fun i =>
    match (if i = 0 then none else some (position.getD (i - 1) 0)),
        (pctChange price).getD i none, (transCost position rate).getD i none
      with
    | some p, some r, some c => some (p * r - c)
    | _, _, _ => none

theorem transCost_getD_zero (position : List ℝ) (rate : ℝ) :
    (transCost position rate).getD 0 none = none := by
  rw [transCost, getD_range_map]
  rcases Nat.eq_zero_or_pos position.length with h | h
  · rw [if_neg (by omega)]
  · rw [if_pos h, if_pos rfl]

theorem transCost_getD_eq (position : List ℝ) (rate : ℝ) {i : ℕ}
    (h1 : 1 ≤ i) (h2 : i < position.length) :
    (transCost position rate).getD i none =
      some (|position.getD i 0 - position.getD (i - 1) 0| * rate) := by
  rw [transCost, getD_range_map, if_pos h2, if_neg (by omega)]

theorem pctChange_getD_zero (price : List (Option ℝ)) :
    (pctChange price).getD 0 none = none := by
  rw [pctChange, getD_range_map]
  rcases Nat.eq_zero_or_pos price.length with h | h
  · rw [if_neg (by omega)]
  · rw [if_pos h, if_pos rfl]

theorem pnlList_getD_zero (position : List ℝ) (price : List (Option ℝ))
    (rate : ℝ) :
    (pnlList position price rate).getD 0 none = none := by
  rw [pnlList, getD_range_map]
  rcases Nat.eq_zero_or_pos position.length with h | h
  · rw [if_neg (by omega)]
  · rw [if_pos h, if_pos rfl]

/-- C3: the accounting columns satisfy the stated formulas: trans_cost,
returns and pnl are missing at bar 0 (a shifted operand is absent there, not
zero); for later in-range bars trans_cost[i] equals the absolute position
change times the rate, returns[i] equals price[i]/price[i-1] - 1 whenever
both prices are present and is missing when either is missing, and pnl[i]
equals the lagged position position[i-1] times returns[i] minus trans_cost[i],
missing whenever the returns operand is missing. -/
theorem accounting_columns (position : List ℝ) (price : List (Option ℝ))
    (rate : ℝ) (i : ℕ) :
    (transCost position rate).getD 0 none = none ∧
    (pctChange price).getD 0 none = none ∧
    (pnlList position price rate).getD 0 none = none ∧
    (1 ≤ i → i < position.length →
      (transCost position rate).getD i none =
        some (|position.getD i 0 - position.getD (i - 1) 0| * rate)) ∧
    (1 ≤ i → i < price.length → ∀ a b, price.getD i none = some a →
      price.getD (i - 1) none = some b →
      (pctChange price).getD i none = some (a / b - 1)) ∧
    (1 ≤ i → price.getD i none = none ∨ price.getD (i - 1) none = none →
      (pctChange price).getD i none = none) ∧
    (1 ≤ i → i < position.length → ∀ r,
      (pctChange price).getD i none = some r →
      (pnlList position price rate).getD i none =
        some (position.getD (i - 1) 0 * r -
          |position.getD i 0 - position.getD (i - 1) 0| * rate)) ∧
    ((pctChange price).getD i none = none →
      (pnlList position price rate).getD i none = none) := by
  refine ⟨transCost_getD_zero position rate, pctChange_getD_zero price,
    pnlList_getD_zero position price rate,
    fun h1 h2 => transCost_getD_eq position rate h1 h2, ?_, ?_, ?_, ?_⟩
  · intro h1 h2 a b ha hb
    rw [pctChange, getD_range_map, if_pos h2, if_neg (by omega), ha, hb]
  · intro h1 hmiss
    rw [pctChange, getD_range_map]
    rcases Nat.lt_or_ge i price.length with hl | hl
    · rw [if_pos hl, if_neg (by omega)]
      rcases hmiss with h | h
      · rw [h]
      · rw [h]
        cases price.getD i none <;> rfl
    · rw [if_neg (Nat.not_lt.2 hl)]
  · intro h1 h2 r hr
    rw [pnlList, getD_range_map, if_pos h2, if_neg (by omega), hr,
      transCost_getD_eq position rate h1 h2]
  · intro h
    rw [pnlList, getD_range_map]
    rcases Nat.lt_or_ge i position.length with hl | hl
    · rw [if_pos hl]
      rcases Nat.eq_zero_or_pos i with rfl | hi0
      · rw [if_pos rfl]
      · rw [if_neg (by omega), h]
    · rw [if_neg (Nat.not_lt.2 hl)]

/-- Embeds truncation of the epoch-millisecond timestamp to its calendar day
(pl.from_epoch followed by dt.truncate over one day, src/backtester.py lines
100-111): floor division by the milliseconds in a day. -/
def dayOf (t : ℤ) : ℤ := Int.fdiv t 86400000

/-- Embeds the group-by-day aggregation inside compute_sharpe_ratio
(src/backtester.py lines 109-115): one bucket per distinct truncated day,
holding the polars sum of that day's PnL entries.  A polars sum skips nulls
and returns 0 for an all-null group, so the aggregated column is never null
and the subsequent drop_nulls is a no-op.  The group order polars produces is
unspecified; first-occurrence order is used here, and the downstream mean and
sample std are order-invariant. -/
noncomputable def aggDaily (ledger : List (ℤ × Option ℝ)) : List ℝ :=
  ((ledger.map fun r => dayOf r.1).dedup).map fun d =>
    ((ledger.filter fun r => dayOf r.1 == d).map fun r => r.2.getD 0).sum

/-- Embeds BackTester.compute_sharpe_ratio (src/backtester.py lines 106-122):
aggregate by day, return 0 for an empty daily list, 0 when the sample std is
exactly 0, otherwise mean over std times the square root of the trading
periods.  np.std with ddof = 1 over a single daily bucket is NaN; comparing
NaN against 0 is false and the division then yields NaN, modelled `none`. -/
noncomputable def computeSharpeRatio (ledger : List (ℤ × Option ℝ))
    (tradingDays : ℕ) : Option ℝ :=
  if aggDaily ledger = [] then some 0
  else
    match npStdSample (aggDaily ledger) with
    | none => none
    | some sd =>
      if sd = 0 then some 0
      else some (npMean (aggDaily ledger) / sd * Real.sqrt tradingDays)

/-- C6: the Sharpe ratio is computed from the daily aggregation of PnL by
truncated epoch-ms day, and satisfies the stated case analysis: 0 for an
empty daily series, 0 when the sample standard deviation is exactly 0, the
annualized mean-over-std otherwise; with a single daily bucket the sample
std is undefined (NaN) and the returned value is the NaN the formula
produces, modelled as missing. -/
theorem sharpe_ratio_spec (L : List (ℤ × Option ℝ)) (T : ℕ) :
    (aggDaily L = ((L.map fun r => dayOf r.1).dedup).map fun d =>
      ((L.filter fun r => dayOf r.1 == d).map fun r => r.2.getD 0).sum) ∧
    (aggDaily L = [] → computeSharpeRatio L T = some 0) ∧
    (aggDaily L ≠ [] → npStdSample (aggDaily L) = some 0 →
      computeSharpeRatio L T = some 0) ∧
    (∀ s, aggDaily L ≠ [] → npStdSample (aggDaily L) = some s → s ≠ 0 →
      computeSharpeRatio L T =
        some (npMean (aggDaily L) / s * Real.sqrt T)) ∧
    (aggDaily L ≠ [] → npStdSample (aggDaily L) = none →
      computeSharpeRatio L T = none) := by
  refine ⟨rfl, ?_, ?_, ?_, ?_⟩
  · intro h
    rw [computeSharpeRatio, if_pos h]
  · intro h hs
    rw [computeSharpeRatio, if_neg h, hs]
    simp
  · intro s h hs hs0
    rw [computeSharpeRatio, if_neg h, hs]
    simp [hs0]
  · intro h hs
    rw [computeSharpeRatio, if_neg h, hs]

/-- Closed instance of the Sharpe-ratio cases: a ledger with one unit of PnL
on each of two consecutive days has daily aggregate 1, 1, sample std exactly
0, and Sharpe ratio 0. -/
theorem sharpe_ratio_spec_witness :
    aggDaily [((0 : ℤ), some (1 : ℝ)), ((86400000 : ℤ), some (1 : ℝ))] ≠
        [] ∧
      npStdSample (aggDaily
        [((0 : ℤ), some (1 : ℝ)), ((86400000 : ℤ), some (1 : ℝ))]) =
        some 0 ∧
      computeSharpeRatio
        [((0 : ℤ), some (1 : ℝ)), ((86400000 : ℤ), some (1 : ℝ))] 365 =
        some 0 := by
  have hd0 : dayOf 0 = 0 := by decide
  have hd1 : dayOf 86400000 = 1 := by decide
  have hagg : aggDaily [((0 : ℤ), some (1 : ℝ)), ((86400000 : ℤ), some (1 : ℝ))]
      = [1, 1] := by
    rw [aggDaily]
    simp only [List.map_cons, List.map_nil, hd0, hd1]
    rw [show ([0, 1] : List ℤ).dedup = [0, 1] from by decide]
    simp [List.filter_cons, hd0, hd1]
  have hstd : npStdSample [(1 : ℝ), 1] = some 0 := by
    have hsum : ([(1 : ℝ), 1].map fun v => (v - npMean [(1 : ℝ), 1]) ^ 2).sum
        = 0 := by
      norm_num [npMean]
    rw [npStdSample, if_neg (by norm_num), hsum]
    norm_num
  refine ⟨by rw [hagg]; simp, by rw [hagg]; exact hstd, ?_⟩
  exact (sharpe_ratio_spec
    [((0 : ℤ), some (1 : ℝ)), ((86400000 : ℤ), some (1 : ℝ))] 365).2.2.1
    (by rw [hagg]; simp) (by rw [hagg]; exact hstd)

/-- Embeds np.cumprod (src/backtester.py line 134): running products, first
entry the first factor. -/
noncomputable def cumprod (l : List ℝ) : List ℝ := (List.scanl (· * ·) 1 l).tail

/-- Embeds np.maximum.accumulate (src/backtester.py line 135): running
maxima, first entry the first element. -/
noncomputable def runningMax : List ℝ → List ℝ
  | [] => []
  | h :: t => List.scanl max h t

/-- Embeds np.min over an array of actual numbers: raises on an empty array
(modelled `none`), else the minimum of the entries. -/
noncomputable def npMin : List ℝ → Option ℝ
  | [] => none
  | h :: t => some (t.foldl min h)

/-- Embeds the per-entry drawdown quotient cum_prod/running_max - 1
(src/backtester.py line 136) with IEEE semantics.  A zero running maximum
only occurs where the cumulative product is itself 0 (a zero product
persists, and a maximum attained among nonzero nonpositive entries is
negative), so the division there is 0.0/0.0 = NaN, modelled `none`. -/
noncomputable def drawdownEntry (c m : ℝ) : Option ℝ :=
  if m = 0 then none else some (c / m - 1)

/-- Embeds np.min over floats that may contain NaN (none): the result is NaN
when any entry is NaN, the minimum otherwise; an empty array raises, also
modelled `none`. -/
noncomputable def npMinNan (l : List (Option ℝ)) : Option ℝ :=
  if none ∈ l then none else npMin l.reduceOption

/-- Embeds BackTester._compute_max_drawdown (src/backtester.py lines
132-137): drop the nulls of the PnL column, compound 1 + pnl, divide by the
running maximum, subtract 1 and take the minimum, with the NaN produced by a
zero running maximum propagating through np.min. -/
noncomputable def computeMaxDrawdown (pnlColumn : List (Option ℝ)) :
    Option ℝ :=
  npMinNan (List.zipWith drawdownEntry
    (cumprod (pnlColumn.reduceOption.map fun r => 1 + r))
    (runningMax (cumprod (pnlColumn.reduceOption.map fun r => 1 + r))))

theorem scanl_head {α : Type} (f : α → α → α) (b : α) (t : List α) :
    ∃ rest, List.scanl f b t = b :: rest := by
  cases t with
  | nil => exact ⟨[], by simp⟩
  | cons c t2 => exact ⟨_, by rw [List.scanl_cons, List.singleton_append]⟩

theorem foldl_min_le (t : List ℝ) (a : ℝ) : t.foldl min a ≤ a := by
  induction t generalizing a with
  | nil => exact le_refl a
  | cons b t2 ih => exact le_trans (ih (min a b)) (min_le_left a b)

theorem scanl_max_chain (t : List ℝ) (a : ℝ)
    (hc : List.Chain (· ≤ ·) a t) : List.scanl max a t = a :: t := by
  induction t generalizing a with
  | nil => simp
  | cons b t2 ih =>
    cases hc with
    | cons hab hc2 =>
      rw [List.scanl_cons, List.singleton_append, max_eq_right hab, ih b hc2]

theorem zipWith_self_map {α : Type} (f : ℝ → ℝ → α) (l : List ℝ) :
    List.zipWith f l l = l.map fun a => f a a := by
  induction l with
  | nil => rfl
  | cons a t ih => simp [ih]

theorem scanl_max_mem (t : List ℝ) (a : ℝ) :
    ∀ y ∈ List.scanl max a t, y = a ∨ y ∈ t := by
  induction t generalizing a with
  | nil =>
    intro y hy
    simp only [List.scanl_nil, List.mem_singleton] at hy
    exact Or.inl hy
  | cons b t2 ih =>
    intro y hy
    rw [List.scanl_cons, List.singleton_append] at hy
    rcases List.mem_cons.1 hy with h | h
    · exact Or.inl h
    · rcases ih (max a b) y h with h2 | h2
      · rcases max_choice a b with hm | hm
        · exact Or.inl (h2.trans hm)
        · exact Or.inr (by rw [h2, hm]; exact List.mem_cons_self b t2)
      · exact Or.inr (List.mem_cons_of_mem b h2)

theorem zipWith_drawdownEntry_ne_none (l1 l2 : List ℝ)
    (h : ∀ m ∈ l2, m ≠ 0) :
    (none : Option ℝ) ∉ List.zipWith drawdownEntry l1 l2 := by
  induction l1 generalizing l2 with
  | nil => simp
  | cons c t ih =>
    cases l2 with
    | nil => simp
    | cons m t2 =>
      intro hmem
      rcases List.mem_cons.1 hmem with hh | hh
      · rw [drawdownEntry, if_neg (h m (by simp))] at hh
        exact Option.noConfusion hh
      · exact ih t2 (fun mm hmm => h mm (List.mem_cons_of_mem m hmm)) hh

theorem foldl_min_zero (t : List ℝ) (hz : ∀ y ∈ t, y = 0) :
    t.foldl min 0 = 0 := by
  induction t with
  | nil => rfl
  | cons b t2 ih =>
    rw [List.foldl_cons, hz b (by simp), min_self]
    exact ih fun y hy => hz y (by simp [hy])

/-- C8 (amended): on a ledger with at least one non-missing PnL entry whose
cumulative-product sequence has no zero entry, the max-drawdown value exists
and is at most 0, and it is exactly 0 whenever that sequence is
monotonically non-decreasing.  A zero cumulative product (a pnl of exactly
-1) zeroes the running maximum, the 0/0 drawdown quotient is NaN, np.min
propagates it, and the result is NaN instead of a number. -/
theorem max_drawdown_nonpos (pnlColumn : List (Option ℝ))
    (h : pnlColumn.reduceOption ≠ [])
    (hz : ∀ c ∈ cumprod (pnlColumn.reduceOption.map fun r => 1 + r),
      c ≠ 0) :
    ∃ v, computeMaxDrawdown pnlColumn = some v ∧ v ≤ 0 ∧
      (List.Chain' (· ≤ ·)
          (cumprod (pnlColumn.reduceOption.map fun r => 1 + r)) →
        v = 0) := by
  have hlne : (pnlColumn.reduceOption.map fun r => 1 + r) ≠ [] := by
    simpa using h
  obtain ⟨a, t, hat⟩ := List.exists_cons_of_ne_nil hlne
  obtain ⟨rest, hrest⟩ := scanl_head (· * ·) (1 * a) t
  have hcp : cumprod (pnlColumn.reduceOption.map fun r => 1 + r) =
      (1 * a) :: rest := by
    rw [hat, cumprod, List.scanl_cons, List.singleton_append, List.tail_cons,
      hrest]
  obtain ⟨rest2, hrest2⟩ := scanl_head max (1 * a) rest
  have ha0 : (1 * a) ≠ 0 := hz _ (by rw [hcp]; exact List.mem_cons_self _ _)
  have hrm : runningMax ((1 * a) :: rest) = (1 * a) :: rest2 := by
    rw [runningMax, hrest2]
  have hrm_ne : ∀ mm ∈ (1 * a) :: rest2, mm ≠ 0 := by
    intro mm hmm
    rcases List.mem_cons.1 hmm with rfl | hmm2
    · exact ha0
    · have hmem : mm ∈ List.scanl max (1 * a) rest := by
        rw [hrest2]
        exact List.mem_cons_of_mem _ hmm2
      rcases scanl_max_mem rest (1 * a) mm hmem with rfl | hmem2
      · exact ha0
      · exact hz mm (by rw [hcp]; exact List.mem_cons_of_mem _ hmem2)
  have hd0 : drawdownEntry (1 * a) (1 * a) = some 0 := by
    rw [drawdownEntry, if_neg ha0, div_self ha0]
    norm_num
  have hdd : computeMaxDrawdown pnlColumn =
      npMinNan (drawdownEntry (1 * a) (1 * a) ::
        List.zipWith drawdownEntry rest rest2) := by
    rw [computeMaxDrawdown, hcp, hrm]
    rfl
  have hnn : (none : Option ℝ) ∉ drawdownEntry (1 * a) (1 * a) ::
      List.zipWith drawdownEntry rest rest2 := by
    intro hmem
    rcases List.mem_cons.1 hmem with hh | hh
    · rw [hd0] at hh
      exact Option.noConfusion hh
    · exact zipWith_drawdownEntry_ne_none rest rest2
        (fun mm hmm => hrm_ne mm (List.mem_cons_of_mem _ hmm)) hh
  have hv : computeMaxDrawdown pnlColumn =
      some (((List.zipWith drawdownEntry rest rest2).reduceOption).foldl
        min 0) := by
    rw [hdd, npMinNan, if_neg hnn, hd0, List.reduceOption_cons_of_some,
      npMin]
  refine ⟨_, hv, foldl_min_le _ _, ?_⟩
  intro hchain
  rw [hcp] at hchain
  have hrm2 : List.scanl max (1 * a) rest = (1 * a) :: rest :=
    scanl_max_chain rest (1 * a) hchain
  have hr2 : rest2 = rest := by
    have hcons : (1 * a) :: rest2 = (1 * a) :: rest := by
      rw [← hrest2, hrm2]
    injection hcons
  rw [hr2, zipWith_self_map]
  refine foldl_min_zero _ fun y hy => ?_
  have hy2 : some y ∈ rest.map (fun c => drawdownEntry c c) :=
    List.reduceOption_mem_iff.1 hy
  obtain ⟨c, hc, hcy⟩ := List.mem_map.1 hy2
  have hc0 : c ≠ 0 := hz c (by rw [hcp]; exact List.mem_cons_of_mem _ hc)
  rw [drawdownEntry, if_neg hc0, div_self hc0] at hcy
  have : (1 : ℝ) - 1 = y := by injection hcy
  linarith

/-- Counterexample to the previous C8 readings: a PnL of exactly -1 makes
the cumulative product hit 0, which is monotonically non-decreasing, yet the
max-drawdown computation returns NaN (the 0/0 drawdown quotient propagated
through np.min), which is neither 0 nor a number at most 0. -/
theorem max_drawdown_nan_cex :
    List.Chain' (· ≤ ·)
        (cumprod ((([some (-1 : ℝ), some 0] : List (Option ℝ)).reduceOption).map
          fun r => 1 + r)) ∧
      computeMaxDrawdown [some (-1 : ℝ), some 0] = none := by
  have hro : (([some (-1 : ℝ), some 0] : List (Option ℝ)).reduceOption).map
      (fun r => 1 + r) = [0, 1] := by
    simp [List.reduceOption]
  have hcp : cumprod ((([some (-1 : ℝ), some 0] :
      List (Option ℝ)).reduceOption).map fun r => 1 + r) = [0, 0] := by
    rw [hro]
    norm_num [cumprod, List.scanl]
  constructor
  · rw [hcp]
    simp
  · rw [computeMaxDrawdown, hcp]
    norm_num [runningMax, List.scanl, npMinNan, drawdownEntry,
      List.zipWith, max_self]

/-- Closed instance of the max-drawdown bound: a single positive PnL entry
has a nowhere-zero cumulative product and gives a defined drawdown value
that is at most 0. -/
theorem max_drawdown_nonpos_witness :
    ([some (1 : ℝ)] : List (Option ℝ)).reduceOption ≠ [] ∧
      (∀ c ∈ cumprod ((([some (1 : ℝ)] : List (Option ℝ)).reduceOption).map
        fun r => 1 + r), c ≠ 0) ∧
      ∃ v, computeMaxDrawdown [some (1 : ℝ)] = some v ∧ v ≤ 0 ∧
        (List.Chain' (· ≤ ·)
            (cumprod ((([some (1 : ℝ)] : List (Option ℝ)).reduceOption).map
              fun r => 1 + r)) →
          v = 0) := by
  have hz : ∀ c ∈ cumprod ((([some (1 : ℝ)] :
      List (Option ℝ)).reduceOption).map fun r => 1 + r), c ≠ 0 := by
    have hcp : cumprod ((([some (1 : ℝ)] : List (Option ℝ)).reduceOption).map
        fun r => 1 + r) = [2] := by
      norm_num [List.reduceOption, cumprod, List.scanl]
    rw [hcp]
    intro c hc
    rw [List.mem_singleton] at hc
    rw [hc]
    norm_num
  exact ⟨by simp, hz, max_drawdown_nonpos [some 1] (by simp) hz⟩

/-- Embeds the failure behaviour of VectorBackTester._compute_rolling_mean:
np.ones rejects a negative size and np.convolve rejects an empty kernel, so
w < 1 raises ValueError; for w above the array length the valid-mode
convolution result cannot be broadcast into the empty slice
rolling_array[w-1:], which also raises ValueError.  A raise is `none`. -/
noncomputable def vbRollingMeanChecked (x : List ℝ) (w : ℤ) :
    Option (List (Option ℝ)) :=
  if w < 1 then none
  else if (x.length : ℤ) < w then none
  else some (vbRollingMean x w.toNat)

/-- Embeds the failure behaviour of the polars rolling_mean call in
BackTester._z_score_strategy: polars rejects a non-positive window_size
(modelled `none`), but a window_size larger than the series length is
accepted and merely leaves every entry null. -/
noncomputable def plRollingMeanChecked (x : List ℝ) (w : ℤ) :
    Option (List (Option ℝ)) :=
  if w < 1 then none
  else some (plRollingMean x w.toNat)

/-- C9 (amended): a window below 1 is reported as an error by both
implementations, and a window above the series length is reported by the
vector implementation (numpy broadcast failure); the polars windowed
implementation, however, accepts an oversized window and silently produces an
all-missing rolling column instead of failing. -/
theorem rolling_window_bounds (x : List ℝ) (w : ℤ) :
    (w < 1 → vbRollingMeanChecked x w = none ∧
      plRollingMeanChecked x w = none) ∧
    ((x.length : ℤ) < w → vbRollingMeanChecked x w = none) ∧
    (1 ≤ w → (x.length : ℤ) < w →
      plRollingMeanChecked x w = some (plRollingMean x w.toNat) ∧
      ∀ o ∈ plRollingMean x w.toNat, o = none) := by
  refine ⟨?_, ?_, ?_⟩
  · intro h
    rw [vbRollingMeanChecked, if_pos h, plRollingMeanChecked, if_pos h]
    exact ⟨rfl, rfl⟩
  · intro h
    rw [vbRollingMeanChecked]
    rcases lt_or_ge w 1 with h1 | h1
    · rw [if_pos h1]
    · rw [if_neg (not_lt.2 h1), if_pos h]
  · intro h1 h2
    refine ⟨by rw [plRollingMeanChecked, if_neg (not_lt.2 h1)], ?_⟩
    intro o ho
    obtain ⟨i, hi, rfl⟩ := List.mem_map.1 ho
    have hi2 : i < x.length := List.mem_range.1 hi
    rw [if_pos (by omega)]

/-- Counterexample to the original C9 reading: the polars path with window 3
over a length-2 series does not fail, it succeeds and returns an all-null
column. -/
theorem rolling_window_oversized_succeeds :
    plRollingMeanChecked [(1 : ℝ), 2] 3 = some [none, none] := rfl

end Backtester
